import Mathlib

/-!
# Verification of the libra-code nonadiabatic-dynamics core

The repository's `src/` tree holds the interface headers `Dynamics.h` and
`Model_SAC.h` only; the bodies of the declared functions live elsewhere in
the original code base.  Every component is therefore embedded here from the
specification's component contracts (each such definition's doc comment
starts with `Modelled from the spec:`), keeping the declared signatures of
the headers.  All numerics are over `ℚ` so that every definition is
executable and every property decidable on concrete inputs.
-/

namespace Libra

/-- Square `n × n` rational matrix, indexed by `Fin n`. -/
def Mat (n : ℕ) : Type := Fin n → Fin n → ℚ

instance (n : ℕ) : DecidableEq (Mat n) := by
  unfold Mat; infer_instance

/-- Matrix product. -/
def matMul {n : ℕ} (A B : Mat n) : Mat n :=
  fun i j => ∑ k : Fin n, A i k * B k j

/-- Transpose (the adjoint over the rational scalars used in this model). -/
def matT {n : ℕ} (A : Mat n) : Mat n := fun i j => A j i

/-- Identity matrix. -/
def matId (n : ℕ) : Mat n := fun i j => if i = j then 1 else 0

/-- Matrix acting on a vector. -/
def matVec {n : ℕ} (A : Mat n) (v : Fin n → ℚ) : Fin n → ℚ :=
  fun i => ∑ k : Fin n, A i k * v k

/-!
## Overlap Engine (spec §4.2, header lines 77–82)

`Dynamics.h` declares four overloads of `compute_St` together with
`aux_get_transforms`, which reads the transformation matrices retained in the
Hamiltonian object from the previous step.
-/

/-- Modelled from the spec: a `HamiltonianSnapshot` as consumed by the
Overlap Engine — the raw cross-step overlaps of the basis functions, the
current basis-transformation matrix, and the transformation matrix retained
from the previous step (the "Projector History" of §3); the bodies of
`compute_St`/`aux_get_transforms` (Dynamics.cpp) are not in `src/`. -/
structure HamSnap (n : ℕ) where
  Sraw : Mat n
  Ucur : Mat n
  Uprev_stored : Mat n
deriving DecidableEq

/-- Modelled from the spec: `aux_get_transforms` (Dynamics.h line 52)
retrieves the previous-step transformation matrices held inside the
Hamiltonian object. -/
def aux_get_transforms {n : ℕ} (ham : HamSnap n) : Mat n :=
  ham.Uprev_stored

/-- Modelled from the spec: the overlap algorithm shared by all `compute_St`
overloads — the time-overlap matrix `St = Uprev† · Sraw · Ucur` between the
electronic states of consecutive steps (spec §4.2: "direct overlap from
provided transformation matrices"). -/
def overlap_alg {n : ℕ} (Uprev : Mat n) (Sraw : Mat n) (Ucur : Mat n) : Mat n :=
  matMul (matT Uprev) (matMul Sraw Ucur)

/-- Modelled from the spec: Overlap Engine mode (a) — `compute_St` with an
explicit previous-transform argument (Dynamics.h line 81/82). -/
def compute_St_with_Uprev {n : ℕ} (ham : HamSnap n) (Uprev : Mat n) : Mat n :=
  overlap_alg Uprev ham.Sraw ham.Ucur

/-- Modelled from the spec: Overlap Engine mode (b) — `compute_St` without an
explicit previous-transform argument (Dynamics.h line 78/79); the previous
transform is derived internally via `aux_get_transforms`. -/
def compute_St_noUprev {n : ℕ} (ham : HamSnap n) : Mat n :=
  compute_St_with_Uprev ham (aux_get_transforms ham)

/-!
### NBRA flag (spec §4.2, header lines 77–82)

The NBRA overloads take an `isNBRA` flag; per the spec it "changes how the
Hamiltonian Provider is queried ... but leaves the overlap algorithm
unchanged".
-/

/-- Modelled from the spec: the Hamiltonian Provider's view for an ensemble
member — its own snapshot plus the shared reference-trajectory snapshot used
when the NBRA (fixed-Hamiltonian trajectory reuse) flag is set. -/
structure EnsembleHam (n : ℕ) where
  own : HamSnap n
  reference : HamSnap n
deriving DecidableEq

/-- Modelled from the spec: how the Hamiltonian Provider is queried —
NBRA mode reads the single shared reference trajectory, non-NBRA mode reads
the trajectory's own Hamiltonian. -/
def query_provider {n : ℕ} (eh : EnsembleHam n) (isNBRA : Bool) : HamSnap n :=
  if isNBRA then eh.reference else eh.own

/-- Modelled from the spec: `compute_St(ham, isNBRA)` (Dynamics.h line 78) —
queries the provider according to the flag, then runs the unchanged overlap
algorithm. -/
def compute_St_flag {n : ℕ} (eh : EnsembleHam n) (isNBRA : Bool) : Mat n :=
  compute_St_noUprev (query_provider eh isNBRA)

/-- Modelled from the spec: the flagless overload `compute_St(ham)`
(Dynamics.h line 79) — queries the trajectory's own Hamiltonian. -/
def compute_St_noflag {n : ℕ} (eh : EnsembleHam n) : Mat n :=
  compute_St_noUprev eh.own

/-!
## Hop Proposal Engine (spec §4.3, `dyn_hop_proposal.h`)
-/

/-- Modelled from the spec: electronic amplitudes as complex numbers,
represented as (real, imaginary) rational pairs (the `CMATRIX` column `C`). -/
def Amp : Type := ℚ × ℚ

instance : DecidableEq Amp := by
  unfold Amp; infer_instance

/-- Squared magnitude of an amplitude: the state's population. -/
def ampNormSq (c : Amp) : ℚ := c.1 * c.1 + c.2 * c.2

/-- Real part of `conj a * b`. -/
def reConjMul (a b : Amp) : ℚ := a.1 * b.1 + a.2 * b.2

/-- Modelled from the spec: the raw fewest-switches flux from the active
state `act` to state `i` over one timestep `dt` — the FSSH probability
`g_i = dt · 2 Re(c_act* c_i d_i) / |c_act|²`, with `d i` the (velocity-dotted)
derivative-coupling/overlap datum supplied by the Hamiltonian; may be
negative.  The body (`dyn_hop_proposal.cpp`) is not in `src/`. -/
def raw_flux {n : ℕ} (C : Fin n → Amp) (act : Fin n) (d : Fin n → ℚ) (dt : ℚ)
    (i : Fin n) : ℚ :=
  dt * 2 * reConjMul (C act) (C i) * d i / ampNormSq (C act)

/-- The raw fluxes with every negative entry floored to zero and the active
entry set to zero ("never hop on negative flux"). -/
def floored_flux {n : ℕ} (C : Fin n → Amp) (act : Fin n) (d : Fin n → ℚ)
    (dt : ℚ) : Fin n → ℚ :=
  fun i => if i = act then 0 else max 0 (raw_flux C act d dt i)

/-- Total floored outgoing flux from the active state. -/
def total_flux {n : ℕ} (C : Fin n → Amp) (act : Fin n) (d : Fin n → ℚ)
    (dt : ℚ) : ℚ :=
  ∑ i : Fin n, floored_flux C act d dt i

/-- Modelled from the spec: the Hop Proposal Engine (§4.3); the body
(`dyn_hop_proposal.cpp`) is not in `src/`.  Outgoing raw fluxes from the
active state are floored at zero, the active entry is zero, and if the
floored fluxes sum beyond one they are rescaled so that the outgoing
probabilities sum to at most 1 (the stay probability being `1 −` that sum).
Deterministic: a plain function of its inputs with no randomness. -/
def hop_proposal {n : ℕ} (C : Fin n → Amp) (act : Fin n) (d : Fin n → ℚ)
    (dt : ℚ) : Fin n → ℚ :=
  if total_flux C act d dt ≤ 1 then floored_flux C act d dt
  else fun i => floored_flux C act d dt i / total_flux C act d dt

/-!
## Decoherence Corrector (spec §4.5, `dyn_decoherence.h`)
-/

/-- The populations after damping the inactive states, before
renormalization. -/
def damped_pops {n : ℕ} (pops : Fin n → ℚ) (act : Fin n) (damp : ℚ) :
    Fin n → ℚ :=
  fun i => if i = act then pops act else damp * pops i

/-- Total probability left after damping: the renormalization factor. -/
def damped_total {n : ℕ} (pops : Fin n → ℚ) (act : Fin n) (damp : ℚ) : ℚ :=
  ∑ i : Fin n, damped_pops pops act damp i

/-- Modelled from the spec: the damping-only (non-reset) decoherence scheme
of §4.5 — the populations of all inactive states are damped by a factor
`0 ≤ damp ≤ 1` and the vector is renormalized so total probability is
preserved.  The body (`dyn_decoherence.cpp`) is not in `src/`. -/
def decohere_damp {n : ℕ} (pops : Fin n → ℚ) (act : Fin n) (damp : ℚ) :
    Fin n → ℚ :=
  fun i => damped_pops pops act damp i / damped_total pops act damp

/-!
## Hop Acceptance Engine (spec §4.4, `dyn_hop_acceptance.h`)
-/

/-- Outcome states of the Hop Acceptance state machine (§4.4). -/
inductive HopOutcome : Type where
  | acceptedRescaled : HopOutcome
  | rejectedFrustrated : HopOutcome
  | unchanged : HopOutcome
deriving DecidableEq

/-- Cumulative hop probability up to and including index `j`. -/
def cum_prob {n : ℕ} (probs : Fin n → ℚ) (j : Fin n) : ℚ :=
  ∑ i : Fin n, if i.val ≤ j.val then probs i else 0

/-- Modelled from the spec: target-state selection (§4.4) — one uniform
random draw per step, compared against the cumulative proposal probabilities
in a fixed state ordering; the first state whose cumulative probability
exceeds the draw is the candidate, otherwise no candidate (stay). -/
def select_target {n : ℕ} (probs : Fin n → ℚ) (act : Fin n) (draw : ℚ) : Fin n :=
  (List.finRange n).foldr
    (fun j rest => if draw < cum_prob probs j then j else rest) act

/-- Modelled from the spec: the full input of one Hop Acceptance run —
electronic amplitudes, surface energies, the kinetic energy split into the
component along the rescaling direction and the orthogonal remainder, the
active state, and the single uniform random draw. -/
structure HopInputs (n : ℕ) where
  C : Fin n → Amp
  d : Fin n → ℚ
  dt : ℚ
  eners : Fin n → ℚ
  kinAlong : ℚ
  kinPerp : ℚ
  act : Fin n
  draw : ℚ
deriving DecidableEq

/-- Result of one Hop Acceptance run: the outcome state, the new active
state, and the kinetic energy along the rescaling direction after any
momentum rescaling/reversal (the orthogonal component is untouched). -/
structure HopResult (n : ℕ) where
  outcome : HopOutcome
  act : Fin n
  kinAlong : ℚ
deriving DecidableEq

/-- Modelled from the spec: the Hop Acceptance Engine (§4.4); the body
(`dyn_hop_acceptance.cpp`) is not in `src/`.  The proposal vector is built
by the Hop Proposal Engine, a target `j` is selected by cumulative
comparison with the draw; if `j` differs from the active state the kinetic
energy along the rescaling direction is tested against the potential-energy
gap: if sufficient, the momentum component is rescaled so the gap is paid
from it and the active state switches; otherwise the hop is frustrated and
the state is kept (reject policy). -/
def hop_acceptance {n : ℕ} (inp : HopInputs n) : HopResult n :=
  let probs := hop_proposal inp.C inp.act inp.d inp.dt
  let j := select_target probs inp.act inp.draw
  if j = inp.act then
    { outcome := .unchanged, act := inp.act, kinAlong := inp.kinAlong }
  else
    let dE := inp.eners j - inp.eners inp.act
    if inp.kinAlong ≥ dE then
      { outcome := .acceptedRescaled, act := j, kinAlong := inp.kinAlong - dE }
    else
      { outcome := .rejectedFrustrated, act := inp.act, kinAlong := inp.kinAlong }

/-- Total energy of a Hop Acceptance configuration: kinetic (along +
orthogonal components) plus potential on the active surface. -/
def total_energy {n : ℕ} (eners : Fin n → ℚ) (kinAlong kinPerp : ℚ)
    (act : Fin n) : ℚ :=
  kinAlong + kinPerp + eners act

/-!
## Representation Transformer — Transform Amplitudes (spec §4.1, §7;
header line 75)
-/

/-- Error taxonomy of spec §7 (the per-step fatal/recoverable conditions). -/
inductive DynError : Type where
  | DimensionMismatch : DynError
  | InvalidConfiguration : DynError
deriving DecidableEq

/-- An electronic amplitude vector with its basis size (the `CMATRIX` column
argument of `transform_amplitudes`). -/
structure AmpVec where
  dim : ℕ
  entry : Fin dim → ℚ

/-- Modelled from the spec: the Hamiltonian object as seen by the
Representation Transformer — its basis size and the current basis
transformation matrix between the diabatic and adiabatic representations. -/
structure TransHam where
  nstates : ℕ
  U : Mat nstates

/-- Modelled from the spec: `transform_amplitudes` (Dynamics.h line 75);
the body (Dynamics.cpp) is not in `src/`.  Maps an amplitude vector from the
representation `rep_in` to `rep_out` using the current transformation
matrix; pure — no side effects — and fails with `DimensionMismatch` when the
basis sizes of the amplitude vector and the Hamiltonian disagree, aborting
the step instead of returning a result. -/
def transform_amplitudes (rep_in rep_out : ℕ) (C : AmpVec) (ham : TransHam) :
    Except DynError AmpVec :=
  if h : C.dim = ham.nstates then
    if rep_in = rep_out then .ok C
    else
      .ok { dim := C.dim
            entry := fun i =>
              matVec (if rep_in = 0 then ham.U else matT ham.U)
                (fun k => C.entry (Fin.cast h.symm k)) (Fin.cast h i) }
  else .error .DimensionMismatch

/-- A world of observable state threaded through calls, to express
statelessness of the pure collaborators; a call is pure when it returns the
world it was given. -/
structure World where
  observations : List ℚ
deriving DecidableEq

/-- `transform_amplitudes` as a state-passing call: being a pure function,
it returns the world unchanged alongside its result. -/
def transform_amplitudes_call (rep_in rep_out : ℕ) (C : AmpVec)
    (ham : TransHam) (w : World) : Except DynError AmpVec × World :=
  (transform_amplitudes rep_in rep_out C ham, w)

/-!
## Potential model: single avoided crossing (Model_SAC.h lines 35–40)
-/

/-- Modelled from the spec: `SAC_Ham(x, H, dH, d2H, params)` (Model_SAC.h
line 39); the body (Model_SAC.cpp) is not in `src/`.  The spec (§6) fixes
its contract: a pure, stateless, deterministic function
`(coordinate, parameters) -> (H, dH, d²H)` of 2×2 matrices.  The
exponentials of the original avoided-crossing form are represented by the
rational saturating shape `t ↦ t/(1+t)` so that the model stays executable
over `ℚ`; the qualitative single-avoided-crossing structure (odd saturating
diagonal, even localized coupling, H₂₂ = −H₁₁) is kept. -/
def SAC_Ham (x : ℚ) (params_ : List ℚ) : Mat 2 × Mat 2 × Mat 2 :=
  let A := params_.getD 0 (1/100)
  let B := params_.getD 1 (8/5)
  let Cc := params_.getD 2 (1/200)
  let D := params_.getD 3 1
  -- diagonal term: h(x) = A·B·x / (1 + B·|x|), an odd saturating curve
  let habs : ℚ := 1 + B * |x|
  let h11 : ℚ := A * B * x / habs
  let dh11 : ℚ := A * B / (habs * habs)
  let d2h11 : ℚ := -2 * A * B * B * (if x ≥ 0 then 1 else -1) / (habs * habs * habs)
  -- coupling term: c(x) = C / (1 + D·x²), an even localized peak
  let cden : ℚ := 1 + D * x * x
  let h12 : ℚ := Cc / cden
  let dh12 : ℚ := -2 * Cc * D * x / (cden * cden)
  let d2h12 : ℚ := (-2 * Cc * D * cden + 8 * Cc * D * D * x * x) / (cden * cden * cden)
  let mk : ℚ → ℚ → ℚ → Mat 2 := fun a b c => fun i j =>
    if i = j then (if i.val = 0 then a else c) else b
  (mk h11 h12 (-h11), mk dh11 dh12 (-dh11), mk d2h11 d2h12 (-d2h11))

/-- `SAC_Ham` as a state-passing call: pure, so the observable world passes
through unchanged and no state visible to later calls is modified. -/
def SAC_Ham_call (x : ℚ) (params_ : List ℚ) (w : World) :
    (Mat 2 × Mat 2 × Mat 2) × World :=
  (SAC_Ham x params_, w)

/-- Modelled from the spec: the batch form `model_SAC` (Model_SAC.h line 35)
producing the diabatic matrices directly — diabatic Hamiltonian, identity
diabatic overlap, first-derivative blocks, and zero derivative couplings —
from `SAC_Ham` at the first coordinate. -/
def model_SAC (q : List ℚ) (params_ : List ℚ) :
    Mat 2 × Mat 2 × List (Mat 2) × List (Mat 2) :=
  let x := q.getD 0 0
  let r := SAC_Ham x params_
  (r.1, matId 2, [r.2.1], [fun _ _ => 0])

/-!
## Dynamics Orchestrator (spec §4.6; header lines 86–95)

`Dynamics.h` declares three `compute_dynamics` overloads: bare, with an
explicit thermostat list, and with a full `dyn_variables` aggregate.
-/

/-- Modelled from the spec: the recognized control parameters of §6 that the
orchestrator's control flow depends on — the `ensemble` selector (`0` =
thermostat off / NVE, otherwise thermostatted), the integration timestep and
the damping factor of the decoherence scheme. -/
structure dyn_control_params where
  ensemble : ℕ
  dt : ℚ
  decoh_damp : ℚ
deriving DecidableEq

/-- Modelled from the spec: the Thermostat collaborator (§6) — an opaque
per-trajectory handle; the core only calls into it to scale momenta. -/
structure Thermostat where
  scale : ℚ
deriving DecidableEq

/-- The persistent per-trajectory state threaded through `compute_dynamics`:
positions, momenta, inverse masses, electronic amplitudes, the projector
history and the active state (spec §3). -/
structure TrajState (ndof nstates : ℕ) where
  q : Fin ndof → ℚ
  p : Fin ndof → ℚ
  invM : Fin ndof → ℚ
  C : Fin nstates → Amp
  proj : Mat nstates
  act_state : Fin nstates
deriving DecidableEq

/-- Modelled from the spec: the Hamiltonian Provider's per-step answer used
by the orchestrator — surface energies, velocity-dotted couplings, per-state
forces and the basis transformation matrix (§6 `evaluate`). -/
structure DynHam (ndof nstates : ℕ) where
  eners : Fin nstates → ℚ
  coup : Fin nstates → ℚ
  force : Fin nstates → Fin ndof → ℚ
  U : Mat nstates

/-- The Hamiltonian Provider as a pure query from coordinates (spec §6). -/
def HamProvider (ndof nstates : ℕ) : Type :=
  (Fin ndof → ℚ) → DynHam ndof nstates

/-- Modelled from the spec: one full orchestrated step (§4.6, steps 1–7);
the body (Dynamics.cpp `compute_dynamics`) is not in `src/`.  Updates the
Hamiltonian from the coordinates, propagates the electronic amplitudes
(first-order step of `i dC/dt = E C`), runs hop proposal/acceptance on the
kinetic energy along the rescaling direction (the momentum rescaling factor
`√(1−ΔE/Ekin)` is represented by its first-order rational form
`1−ΔE/(2·Ekin)` to stay over `ℚ`), damps the inactive amplitudes with the
decoherence factor, and integrates the nuclear motion on the active
surface. -/
def dynStep {ndof nstates : ℕ} (prms : dyn_control_params)
    (hp : HamProvider ndof nstates) (draw : ℚ)
    (st : TrajState ndof nstates) : TrajState ndof nstates :=
  let ham := hp st.q
  -- (1) Hamiltonian update: new projector from the provider
  let proj' := ham.U
  -- (2) electronic propagation
  let C' : Fin nstates → Amp := fun i =>
    ((st.C i).1 + prms.dt * ham.eners i * (st.C i).2,
     (st.C i).2 - prms.dt * ham.eners i * (st.C i).1)
  -- (3)–(5) hop proposal and acceptance
  let ekin : ℚ := ∑ k : Fin ndof, st.p k * st.p k * st.invM k / 2
  let hop := hop_acceptance
    { C := C', d := ham.coup, dt := prms.dt, eners := ham.eners,
      kinAlong := ekin, kinPerp := 0, act := st.act_state, draw := draw }
  let act' := hop.act
  let p' : Fin ndof → ℚ :=
    if hop.outcome = .acceptedRescaled then
      fun k => st.p k * (1 - (ham.eners act' - ham.eners st.act_state) / (2 * ekin))
    else st.p
  -- (6) decoherence correction on the amplitudes
  let C'' : Fin nstates → Amp := fun i =>
    if i = act' then C' i
    else (prms.decoh_damp * (C' i).1, prms.decoh_damp * (C' i).2)
  -- (7) nuclear integration on the active surface
  let p'' : Fin ndof → ℚ := fun k => p' k + prms.dt * ham.force act' k
  let q' : Fin ndof → ℚ := fun k => st.q k + prms.dt * st.invM k * p'' k
  { q := q', p := p'', invM := st.invM, C := C'', proj := proj', act_state := act' }

/-- Modelled from the spec: the Thermostat call `propagate` of §6, scaling
the momenta; it owns its internal state and touches nothing else. -/
def apply_thermostat {ndof nstates : ℕ} (therm : List Thermostat)
    (st : TrajState ndof nstates) : TrajState ndof nstates :=
  { st with p := fun k => (therm.headD { scale := 1 }).scale * st.p k }

/-- One step of the thermostatted overload: the bare step, followed by the
thermostat coupling only when the ensemble setting asks for it (§4.6
"optionally thermostatted"). -/
def dynStepTherm {ndof nstates : ℕ} (prms : dyn_control_params)
    (hp : HamProvider ndof nstates) (therm : List Thermostat) (draw : ℚ)
    (st : TrajState ndof nstates) : TrajState ndof nstates :=
  let st' := dynStep prms hp draw st
  if prms.ensemble = 0 then st' else apply_thermostat therm st'

/-- The trajectory produced by iterating a step function over the
per-step random draws: the state after every step. -/
def run_dynamics {ndof nstates : ℕ}
    (step : ℚ → TrajState ndof nstates → TrajState ndof nstates)
    (draws : List ℚ) (st : TrajState ndof nstates) :
    List (TrajState ndof nstates) :=
  match draws with
  | [] => []
  | dr :: rest =>
    let st' := step dr st
    st' :: run_dynamics step rest st'

/-- Modelled from the spec: the bare `compute_dynamics` overload
(Dynamics.h line 86). -/
def compute_dynamics {ndof nstates : ℕ} (prms : dyn_control_params)
    (hp : HamProvider ndof nstates) (draws : List ℚ)
    (st : TrajState ndof nstates) : List (TrajState ndof nstates) :=
  run_dynamics (dynStep prms hp) draws st

/-- Modelled from the spec: the `compute_dynamics` overload with an explicit
thermostat list (Dynamics.h line 89). -/
def compute_dynamics_therm {ndof nstates : ℕ} (prms : dyn_control_params)
    (hp : HamProvider ndof nstates) (draws : List ℚ)
    (therm : List Thermostat) (st : TrajState ndof nstates) :
    List (TrajState ndof nstates) :=
  run_dynamics (dynStepTherm prms hp therm) draws st

/-- Modelled from the spec: the explicit `dyn_variables` aggregate of the
fully-stateful overload — the trajectory state plus resumable bookkeeping
(steps completed so far). -/
structure dyn_variables (ndof nstates : ℕ) where
  st : TrajState ndof nstates
  steps_done : ℕ
deriving DecidableEq

/-- Modelled from the spec: the fully-stateful `compute_dynamics` overload
(Dynamics.h line 93) — same stepping as the thermostatted overload, carried
inside the `dyn_variables` aggregate so callers can resume/inspect state. -/
def compute_dynamics_var {ndof nstates : ℕ} (prms : dyn_control_params)
    (hp : HamProvider ndof nstates) (draws : List ℚ)
    (therm : List Thermostat) (dv : dyn_variables ndof nstates) :
    List (dyn_variables ndof nstates) :=
  match draws with
  | [] => []
  | dr :: rest =>
    let dv' : dyn_variables ndof nstates :=
      { st := dynStepTherm prms hp therm dr dv.st, steps_done := dv.steps_done + 1 }
    dv' :: compute_dynamics_var prms hp rest therm dv'

/-!
## Theorems for the specification claims
-/

/-- C1: for every Hamiltonian snapshot and previous transform, Overlap
Engine mode (b) (`compute_St` without an explicit previous-transform
argument, deriving it internally via `aux_get_transforms`) returns exactly
the same time-overlap matrix as mode (a) (`compute_St` with an explicit
`Uprev` argument) whenever the `Uprev` passed to (a) equals the internally
derived one of (b). -/
theorem compute_St_modes_agree {n : ℕ} (ham : HamSnap n) (Uprev : Mat n)
    (h : Uprev = aux_get_transforms ham) :
    compute_St_with_Uprev ham Uprev = compute_St_noUprev ham := by
  rw [h]; rfl

/-- Concrete 2-state snapshot with analytically known eigenvectors: the
(rational) rotation-like transform `[[3/5, −4/5], [4/5, 3/5]]` as current
transform, the identity retained from the previous step. -/
def hamC1 : HamSnap 2 :=
  { Sraw := fun i j => if i = j then 1 else (1 : ℚ)/10
    Ucur := fun i j =>
      if i = j then 3/5 else if i.val = 0 then -(4/5) else 4/5
    Uprev_stored := matId 2 }

/-- Witness for C1 at the concrete 2-state snapshot `hamC1`. -/
theorem compute_St_modes_agree_witness :
    compute_St_with_Uprev hamC1 (aux_get_transforms hamC1) =
      compute_St_noUprev hamC1 :=
  compute_St_modes_agree hamC1 (aux_get_transforms hamC1) rfl

/-- C8: the NBRA flag of `compute_St` changes only how the Hamiltonian
Provider is queried — the flagged overload is the unchanged overlap
algorithm applied to the provider's answer for the flag — and with the flag
off it returns the same overlap matrix as the flagless overload. -/
theorem compute_St_nbra_flag {n : ℕ} (eh : EnsembleHam n) :
    (∀ flag : Bool,
      compute_St_flag eh flag =
        overlap_alg (aux_get_transforms (query_provider eh flag))
          (query_provider eh flag).Sraw (query_provider eh flag).Ucur)
    ∧ compute_St_noflag eh = compute_St_flag eh false := by
  refine ⟨fun flag => rfl, rfl⟩

/-- C5: the Hop Acceptance Engine is deterministic — two runs on equal
inputs (same amplitudes, couplings, energies, kinetic state and random
draw) produce equal outcomes, including the active-state transition and the
rescaled kinetic energy along the rescaling direction. -/
theorem hop_acceptance_deterministic {n : ℕ} (inp₁ inp₂ : HopInputs n)
    (h : inp₁ = inp₂) :
    hop_acceptance inp₁ = hop_acceptance inp₂ := by
  rw [h]

/-- Concrete Hop Acceptance input on a 2-state, positive-flux situation. -/
def hopInpW : HopInputs 2 :=
  { C := fun _ => ((1 : ℚ), (0 : ℚ))
    d := fun i => if i.val = 0 then 0 else 1
    dt := 1/10
    eners := fun i => if i.val = 0 then 0 else 1/2
    kinAlong := 2
    kinPerp := 1
    act := 0
    draw := 1/10 }

/-- Witness for C5: replaying `hop_acceptance` on the equal concrete inputs
yields equal results. -/
theorem hop_acceptance_deterministic_witness :
    hop_acceptance hopInpW = hop_acceptance hopInpW :=
  hop_acceptance_deterministic hopInpW hopInpW rfl

/-- C7: `transform_amplitudes` is pure — as a state-passing call it returns
the observable world unchanged — and whenever the basis sizes of the
amplitude vector and the Hamiltonian disagree it fails with a
`DimensionMismatch` error instead of returning a result. -/
theorem transform_amplitudes_mismatch (rep_in rep_out : ℕ) (C : AmpVec)
    (ham : TransHam) (w : World) (h : C.dim ≠ ham.nstates) :
    transform_amplitudes rep_in rep_out C ham = .error .DimensionMismatch
    ∧ (transform_amplitudes_call rep_in rep_out C ham w).2 = w := by
  constructor
  · unfold transform_amplitudes
    rw [dif_neg h]
  · rfl

/-- Witness for C7: a 1-dimensional amplitude vector against a 2-state
Hamiltonian aborts with `DimensionMismatch`, leaving the world unchanged. -/
theorem transform_amplitudes_mismatch_witness :
    transform_amplitudes 0 1 ⟨1, fun _ => 1⟩ ⟨2, matId 2⟩ =
        .error .DimensionMismatch
    ∧ (transform_amplitudes_call 0 1 ⟨1, fun _ => 1⟩ ⟨2, matId 2⟩
        ⟨[5]⟩).2 = ⟨[5]⟩ :=
  transform_amplitudes_mismatch 0 1 ⟨1, fun _ => 1⟩ ⟨2, matId 2⟩ ⟨[5]⟩
    (by decide)

/-- C9: the single-avoided-crossing model is a stateless, deterministic pure
function — two calls of `SAC_Ham` (or of the batch form `model_SAC`) with
the same coordinate and the same parameters return identical `(H, dH, d²H)`
matrices, and a call leaves the observable world unchanged. -/
theorem SAC_Ham_pure (x₁ x₂ : ℚ) (p₁ p₂ : List ℚ) (w : World)
    (hx : x₁ = x₂) (hp : p₁ = p₂) :
    SAC_Ham x₁ p₁ = SAC_Ham x₂ p₂
    ∧ (SAC_Ham_call x₁ p₁ w).2 = w
    ∧ (SAC_Ham_call x₁ p₁ w).1 = SAC_Ham x₁ p₁
    ∧ model_SAC [x₁] p₁ = model_SAC [x₂] p₂ := by
  subst hx; subst hp
  exact ⟨rfl, rfl, rfl, rfl⟩

/-- Witness for C9 at the coordinate `x = 1` with default parameters. -/
theorem SAC_Ham_pure_witness :
    SAC_Ham 1 [] = SAC_Ham 1 []
    ∧ (SAC_Ham_call 1 [] ⟨[2]⟩).2 = ⟨[2]⟩
    ∧ (SAC_Ham_call 1 [] ⟨[2]⟩).1 = SAC_Ham 1 []
    ∧ model_SAC [1] [] = model_SAC [1] [] :=
  SAC_Ham_pure 1 1 [] [] ⟨[2]⟩ rfl rfl

/-- C3: for every amplitude/coupling input — including ones producing
negative raw flux — the Hop Proposal Engine's output has every entry in
`[0, 1]`, its outgoing entries (over the non-active states) sum to at most
1, every negative raw flux is floored to zero, and the output is a
deterministic function of the inputs (replaying equal inputs yields the
same vector). -/
theorem hop_proposal_valid {n : ℕ} (C : Fin n → Amp) (act : Fin n)
    (d : Fin n → ℚ) (dt : ℚ) :
    (∀ i, 0 ≤ hop_proposal C act d dt i ∧ hop_proposal C act d dt i ≤ 1)
    ∧ (∑ i ∈ Finset.univ.erase act, hop_proposal C act d dt i) ≤ 1
    ∧ (∀ i, i ≠ act → raw_flux C act d dt i < 0 →
        hop_proposal C act d dt i = 0)
    ∧ (∀ C' d' dt', C' = C → d' = d → dt' = dt →
        hop_proposal C' act d' dt' = hop_proposal C act d dt) := by
  have hgnn : ∀ i, 0 ≤ floored_flux C act d dt i := by
    intro i
    unfold floored_flux
    split
    · exact le_rfl
    · exact le_max_left 0 _
  have hgle : ∀ i, floored_flux C act d dt i ≤ total_flux C act d dt :=
    fun i => Finset.single_le_sum (fun j _ => hgnn j) (Finset.mem_univ i)
  have hgact : floored_flux C act d dt act = 0 := by
    unfold floored_flux
    simp
  have herase : (∑ i ∈ Finset.univ.erase act, floored_flux C act d dt i)
      = total_flux C act d dt := by
    unfold total_flux
    rw [← Finset.add_sum_erase Finset.univ _ (Finset.mem_univ act), hgact,
      zero_add]
  have hfloor : ∀ i, i ≠ act → raw_flux C act d dt i < 0 →
      floored_flux C act d dt i = 0 := by
    intro i hi hneg
    unfold floored_flux
    rw [if_neg hi]
    exact max_eq_left hneg.le
  by_cases hc : total_flux C act d dt ≤ 1
  · have hdef : hop_proposal C act d dt = floored_flux C act d dt := by
      unfold hop_proposal
      rw [if_pos hc]
    refine ⟨fun i => ?_, ?_, fun i hi hneg => ?_, fun C' d' dt' h1 h2 h3 => ?_⟩
    · rw [hdef]
      exact ⟨hgnn i, le_trans (hgle i) hc⟩
    · simp only [hdef]
      rw [herase]
      exact hc
    · rw [hdef]
      exact hfloor i hi hneg
    · rw [h1, h2, h3]
  · have hlt : 1 < total_flux C act d dt := not_le.mp hc
    have hspos : 0 < total_flux C act d dt := lt_trans one_pos hlt
    have hdef : hop_proposal C act d dt =
        fun i => floored_flux C act d dt i / total_flux C act d dt := by
      unfold hop_proposal
      rw [if_neg hc]
    refine ⟨fun i => ?_, ?_, fun i hi hneg => ?_, fun C' d' dt' h1 h2 h3 => ?_⟩
    · rw [hdef]
      refine ⟨div_nonneg (hgnn i) hspos.le, ?_⟩
      rw [div_le_one hspos]
      exact hgle i
    · simp only [hdef]
      rw [← Finset.sum_div, herase, div_self (ne_of_gt hspos)]
    · rw [hdef]
      simp only
      rw [hfloor i hi hneg, zero_div]
    · rw [h1, h2, h3]

/-- Concrete amplitudes for the C3 witness. -/
def ampW3 : Fin 2 → Amp := fun _ => ((1 : ℚ), (0 : ℚ))

/-- Concrete couplings for the C3 witness, adversarial: negative flux toward
state 1. -/
def dW3 : Fin 2 → ℚ := fun i => if i.val = 0 then 0 else -1

/-- Witness for C3 at an adversarial input with negative raw flux toward
state 1: the proposed probability there is floored to zero. -/
theorem hop_proposal_valid_witness :
    hop_proposal ampW3 0 dW3 (1/10) 1 = 0 :=
  (hop_proposal_valid ampW3 0 dW3 (1/10)).2.2.1 1 (by decide)
    (by norm_num [raw_flux, ampW3, dW3, reConjMul, ampNormSq])

/-- C4: the damping-only Decoherence Corrector preserves total probability —
a population vector summing to 1 beforehand sums to 1 after the correction —
and under the damping-only (non-reset) scheme the active-state population
after the correction is at least its pre-correction value and at most 1. -/
theorem decohere_damp_conserves {n : ℕ} (pops : Fin n → ℚ) (act : Fin n)
    (damp : ℚ) (hnn : ∀ i, 0 ≤ pops i) (hsum : (∑ i : Fin n, pops i) = 1)
    (hd0 : 0 ≤ damp) (hd1 : damp ≤ 1) (hact : 0 < pops act) :
    (∑ i : Fin n, decohere_damp pops act damp i) = 1
    ∧ pops act ≤ decohere_damp pops act damp act
    ∧ decohere_damp pops act damp act ≤ 1 := by
  have hSnn : 0 ≤ ∑ i ∈ Finset.univ.erase act, pops i :=
    Finset.sum_nonneg fun i _ => hnn i
  have hsplit : pops act + ∑ i ∈ Finset.univ.erase act, pops i = 1 := by
    rw [Finset.add_sum_erase Finset.univ pops (Finset.mem_univ act)]
    exact hsum
  have hTval : damped_total pops act damp
      = pops act + damp * ∑ i ∈ Finset.univ.erase act, pops i := by
    unfold damped_total
    rw [← Finset.add_sum_erase Finset.univ _ (Finset.mem_univ act)]
    unfold damped_pops
    rw [if_pos rfl, Finset.mul_sum]
    congr 1
    refine Finset.sum_congr rfl fun i hi => ?_
    rw [if_neg (Finset.ne_of_mem_erase hi)]
  have hTpos : 0 < damped_total pops act damp := by
    rw [hTval]
    nlinarith [mul_nonneg hd0 hSnn]
  have hTle : damped_total pops act damp ≤ 1 := by
    rw [hTval]
    nlinarith
  have hactle : pops act ≤ damped_total pops act damp := by
    rw [hTval]
    nlinarith [mul_nonneg hd0 hSnn]
  refine ⟨?_, ?_, ?_⟩
  · unfold decohere_damp
    rw [← Finset.sum_div]
    have hTdef : (∑ i : Fin n, damped_pops pops act damp i)
        = damped_total pops act damp := rfl
    rw [hTdef, div_self (ne_of_gt hTpos)]
  · unfold decohere_damp damped_pops
    rw [if_pos rfl, le_div_iff₀ hTpos]
    nlinarith
  · unfold decohere_damp damped_pops
    rw [if_pos rfl, div_le_one hTpos]
    exact hactle

/-- Concrete populations for the C4 witness: a half/half two-state vector. -/
def popsW4 : Fin 2 → ℚ := fun _ => 1/2

/-- Witness for C4: damping the inactive half-population by `1/2` keeps the
total at 1 and moves the active population from `1/2` up toward 1, never
past it. -/
theorem decohere_damp_conserves_witness :
    (∑ i : Fin 2, decohere_damp popsW4 0 (1/2) i) = 1
    ∧ popsW4 0 ≤ decohere_damp popsW4 0 (1/2) 0
    ∧ decohere_damp popsW4 0 (1/2) 0 ≤ 1 :=
  decohere_damp_conserves popsW4 0 (1/2)
    (fun i => by norm_num [popsW4])
    (by norm_num [popsW4, Fin.sum_univ_two])
    (by norm_num) (by norm_num) (by norm_num [popsW4])

/-- C6: for every hop the Hop Acceptance Engine accepts as non-frustrated,
the total energy after the hop — kinetic energy of the rescaled momenta plus
potential energy on the new active surface — equals (exactly, hence within
any tolerance) the total energy before the hop. -/
theorem hop_energy_conserved {n : ℕ} (inp : HopInputs n)
    (h : (hop_acceptance inp).outcome = .acceptedRescaled) :
    total_energy inp.eners (hop_acceptance inp).kinAlong inp.kinPerp
        (hop_acceptance inp).act
      = total_energy inp.eners inp.kinAlong inp.kinPerp inp.act := by
  unfold hop_acceptance at h ⊢
  by_cases h1 : select_target (hop_proposal inp.C inp.act inp.d inp.dt)
      inp.act inp.draw = inp.act
  · rw [if_pos h1] at h
    exact absurd h (by simp)
  · rw [if_neg h1] at h ⊢
    by_cases h2 : inp.kinAlong ≥
        inp.eners (select_target (hop_proposal inp.C inp.act inp.d inp.dt)
          inp.act inp.draw) - inp.eners inp.act
    · rw [if_pos h2]
      unfold total_energy
      ring
    · rw [if_neg h2] at h
      exact absurd h (by simp)

/-- Concrete Hop Acceptance input for the C6 witness: positive flux toward
state 1 and enough kinetic energy to pay the `1/2` energy gap. -/
def hopInpW6 : HopInputs 2 :=
  { C := fun _ => ((1 : ℚ), (0 : ℚ))
    d := fun i => if i.val = 0 then 0 else 1
    dt := 1/10
    eners := fun i => if i.val = 0 then 0 else 1/2
    kinAlong := 2
    kinPerp := 1
    act := 0
    draw := 1/10 }

/-- The hop at `hopInpW6` is accepted with rescaling. -/
theorem hopInpW6_accepted :
    (hop_acceptance hopInpW6).outcome = .acceptedRescaled := by
  have hfin2 : List.finRange 2 = [0, 1] := by decide
  have hraw : raw_flux (fun _ : Fin 2 => ((1 : ℚ), (0 : ℚ))) 0
      (fun i : Fin 2 => if i.val = 0 then 0 else (1 : ℚ)) (1/10)
      = fun i => if i.val = 0 then (0 : ℚ) else 1/5 := by
    funext i
    fin_cases i <;> norm_num [raw_flux, reConjMul, ampNormSq]
  have hfl : floored_flux (fun _ : Fin 2 => ((1 : ℚ), (0 : ℚ))) 0
      (fun i : Fin 2 => if i.val = 0 then 0 else (1 : ℚ)) (1/10)
      = fun i => if i.val = 0 then (0 : ℚ) else 1/5 := by
    funext i
    fin_cases i <;> norm_num [floored_flux, hraw]
  have htot : total_flux (fun _ : Fin 2 => ((1 : ℚ), (0 : ℚ))) 0
      (fun i : Fin 2 => if i.val = 0 then 0 else (1 : ℚ)) (1/10) = 1/5 := by
    norm_num [total_flux, Fin.sum_univ_two, hfl]
  have hprobs : hop_proposal (fun _ : Fin 2 => ((1 : ℚ), (0 : ℚ))) 0
      (fun i : Fin 2 => if i.val = 0 then 0 else (1 : ℚ)) (1/10)
      = fun i => if i.val = 0 then (0 : ℚ) else 1/5 := by
    norm_num [hop_proposal, htot, hfl]
  have hc0 : cum_prob
      (fun i : Fin 2 => if i.val = 0 then (0 : ℚ) else 1/5) 0 = 0 := by
    norm_num [cum_prob, Fin.sum_univ_two]
  have hc1 : cum_prob
      (fun i : Fin 2 => if i.val = 0 then (0 : ℚ) else 1/5) 1 = 1/5 := by
    norm_num [cum_prob, Fin.sum_univ_two]
  have hsel : select_target
      (fun i : Fin 2 => if i.val = 0 then (0 : ℚ) else 1/5) 0 (1/10) = 1 := by
    norm_num [select_target, hfin2, hc0, hc1]
  simp only [hop_acceptance, hopInpW6]
  rw [hprobs, hsel]
  norm_num

/-- Witness for C6 at the accepted concrete hop `hopInpW6`. -/
theorem hop_energy_conserved_witness :
    total_energy hopInpW6.eners (hop_acceptance hopInpW6).kinAlong
        hopInpW6.kinPerp (hop_acceptance hopInpW6).act
      = total_energy hopInpW6.eners hopInpW6.kinAlong hopInpW6.kinPerp
          hopInpW6.act :=
  hop_energy_conserved hopInpW6 hopInpW6_accepted

/-- C2: with the thermostat off, the three `compute_dynamics` overloads
(bare; with an explicit thermostat list; with a full dynamics-variables
aggregate) produce identical trajectories for the same initial state and
the same sequence of random draws — the same positions, momenta, inverse
masses, amplitudes, projectors and active states after every step. -/
theorem compute_dynamics_variants_agree {ndof nstates : ℕ}
    (prms : dyn_control_params) (hp : HamProvider ndof nstates)
    (draws : List ℚ) (therm : List Thermostat) (st : TrajState ndof nstates)
    (k : ℕ) (h : prms.ensemble = 0) :
    compute_dynamics prms hp draws st
      = compute_dynamics_therm prms hp draws therm st
    ∧ (compute_dynamics_var prms hp draws therm ⟨st, k⟩).map dyn_variables.st
      = compute_dynamics prms hp draws st := by
  have hstep : dynStepTherm prms hp therm = dynStep prms hp := by
    funext dr st'
    unfold dynStepTherm
    rw [if_pos h]
  constructor
  · unfold compute_dynamics compute_dynamics_therm
    rw [hstep]
  · unfold compute_dynamics
    induction draws generalizing st k with
    | nil => rfl
    | cons dr rest ih =>
      simp only [compute_dynamics_var, run_dynamics, List.map_cons, hstep]
      rw [ih]

/-- Control parameters for the C2 witness: thermostat off. -/
def prmsW2 : dyn_control_params :=
  { ensemble := 0, dt := 1/10, decoh_damp := 1/2 }

/-- Hamiltonian provider for the C2 witness: a fixed two-surface model on
one nuclear degree of freedom. -/
def hpW2 : HamProvider 1 2 := fun _ =>
  { eners := fun i => if i.val = 0 then 0 else 1/2
    coup := fun _ => 1
    force := fun _ _ => 1
    U := matId 2 }

/-- Initial trajectory state for the C2 witness. -/
def stW2 : TrajState 1 2 :=
  { q := fun _ => 0, p := fun _ => 1, invM := fun _ => 1
    C := fun i => if i.val = 0 then ((1 : ℚ), (0 : ℚ)) else (0, 0)
    proj := matId 2, act_state := 0 }

/-- Witness for C2: one step from the concrete initial state with the
thermostat-off configuration gives the same trajectory in all three
overloads. -/
theorem compute_dynamics_variants_agree_witness :
    compute_dynamics prmsW2 hpW2 [1/10] stW2
      = compute_dynamics_therm prmsW2 hpW2 [1/10] [] stW2
    ∧ (compute_dynamics_var prmsW2 hpW2 [1/10] []
        ⟨stW2, 0⟩).map dyn_variables.st
      = compute_dynamics prmsW2 hpW2 [1/10] stW2 :=
  compute_dynamics_variants_agree prmsW2 hpW2 [1/10] [] stW2 0 rfl

/-- A bare dynamics step never writes the inverse-mass matrix. -/
theorem dynStep_invM {ndof nstates : ℕ} (prms : dyn_control_params)
    (hp : HamProvider ndof nstates) (dr : ℚ) (st : TrajState ndof nstates) :
    (dynStep prms hp dr st).invM = st.invM := rfl

/-- A thermostatted dynamics step never writes the inverse-mass matrix. -/
theorem dynStepTherm_invM {ndof nstates : ℕ} (prms : dyn_control_params)
    (hp : HamProvider ndof nstates) (therm : List Thermostat) (dr : ℚ)
    (st : TrajState ndof nstates) :
    (dynStepTherm prms hp therm dr st).invM = st.invM := by
  unfold dynStepTherm
  split
  · rfl
  · rfl

/-- Every state of a trajectory produced by a step function that preserves
the inverse-mass matrix still carries the initial inverse-mass matrix. -/
theorem run_dynamics_invM {ndof nstates : ℕ}
    (step : ℚ → TrajState ndof nstates → TrajState ndof nstates)
    (hstep : ∀ dr s, (step dr s).invM = s.invM) :
    ∀ (draws : List ℚ) (st : TrajState ndof nstates) s,
      s ∈ run_dynamics step draws st → s.invM = st.invM := by
  intro draws
  induction draws with
  | nil =>
    intro st s hs
    simp [run_dynamics] at hs
  | cons dr rest ih =>
    intro st s hs
    simp only [run_dynamics, List.mem_cons] at hs
    rcases hs with h | h
    · rw [h, hstep]
    · rw [ih _ _ h, hstep]

/-- Every aggregate of a trajectory produced by the fully-stateful overload
still carries the initial inverse-mass matrix. -/
theorem compute_dynamics_var_invM {ndof nstates : ℕ}
    (prms : dyn_control_params) (hp : HamProvider ndof nstates)
    (therm : List Thermostat) :
    ∀ (draws : List ℚ) (dv dv' : dyn_variables ndof nstates),
      dv' ∈ compute_dynamics_var prms hp draws therm dv →
        dv'.st.invM = dv.st.invM := by
  intro draws
  induction draws with
  | nil =>
    intro dv dv' hs
    simp [compute_dynamics_var] at hs
  | cons dr rest ih =>
    intro dv dv' hs
    simp only [compute_dynamics_var, List.mem_cons] at hs
    rcases hs with h | h
    · rw [h]
      exact dynStepTherm_invM prms hp therm dr dv.st
    · rw [ih _ _ h]
      exact dynStepTherm_invM prms hp therm dr dv.st

/-- C10: every `compute_dynamics` overload leaves the inverse-mass matrix
`invM` unchanged — whatever it does to positions, momenta, amplitudes,
projectors and active states, every state along the produced trajectory
carries exactly the initial `invM`. -/
theorem compute_dynamics_invM_frame {ndof nstates : ℕ}
    (prms : dyn_control_params) (hp : HamProvider ndof nstates)
    (draws : List ℚ) (therm : List Thermostat) (st : TrajState ndof nstates)
    (k : ℕ) :
    (∀ s ∈ compute_dynamics prms hp draws st, s.invM = st.invM)
    ∧ (∀ s ∈ compute_dynamics_therm prms hp draws therm st, s.invM = st.invM)
    ∧ (∀ dv ∈ compute_dynamics_var prms hp draws therm ⟨st, k⟩,
        dv.st.invM = st.invM) := by
  refine ⟨?_, ?_, ?_⟩
  · intro s hs
    exact run_dynamics_invM _ (dynStep_invM prms hp) draws st s hs
  · intro s hs
    exact run_dynamics_invM _ (dynStepTherm_invM prms hp therm) draws st s hs
  · intro dv hdv
    exact compute_dynamics_var_invM prms hp therm draws ⟨st, k⟩ dv hdv

/-- Control parameters for the C10 witness. -/
def prmsW10 : dyn_control_params :=
  { ensemble := 1, dt := 1/10, decoh_damp := 1/2 }

/-- Hamiltonian provider for the C10 witness. -/
def hpW10 : HamProvider 1 2 := fun _ =>
  { eners := fun i => if i.val = 0 then 0 else 1/2
    coup := fun _ => 1
    force := fun _ _ => 1
    U := matId 2 }

/-- Initial trajectory state for the C10 witness. -/
def stW10 : TrajState 1 2 :=
  { q := fun _ => 0, p := fun _ => 1, invM := fun _ => 1
    C := fun i => if i.val = 0 then ((1 : ℚ), (0 : ℚ)) else (0, 0)
    proj := matId 2, act_state := 0 }

/-- Witness for C10: the state after one concrete bare step carries the
initial inverse-mass matrix. -/
theorem compute_dynamics_invM_frame_witness :
    (dynStep prmsW10 hpW10 (1/10) stW10).invM = stW10.invM :=
  (compute_dynamics_invM_frame prmsW10 hpW10 [1/10] [] stW10 0).1
    (dynStep prmsW10 hpW10 (1/10) stW10) (List.Mem.head _)

end Libra
